import Mathlib

/-!
Shallow embedding of the ordered keyed-collection core:
the positional array-editing primitives `insert` / `move` (utils/array)
and the keyed list state engine built on them (useListData).

JavaScript arrays are modelled as Lean lists.  An out-of-range JavaScript
array read yields `undefined`; reads are therefore modelled by
`jsGet : List T → Int → Option T`, and the `move` primitive — whose write
loop can read past the end of the source array when the target index
exceeds the length — returns a `List (Option T)` where `none` stands for
an `undefined` entry written into the result.

Reference identity (the JavaScript notion of object identity, which the
engine's no-op contract relies on) is modelled by tagging values with an
allocation id: `Ref α` pairs a value with a `Nat` id, and every code path
that allocates a fresh object in the source draws a fresh id from an
explicit allocation counter.  A code path that returns its input object
unchanged returns the same `Ref` and leaves the counter untouched.
-/

namespace ListCore

variable {T : Type} {K : Type}

/-- JavaScript array read: `a[i]` is `undefined` (`none`) when `i` is
negative or at least the length. -/
def jsGet (l : List T) (i : Int) : Option T :=
  if 0 ≤ i then l[i.toNat]? else none

/-- The index clamping performed by the `insert` primitive:
`index = Math.max(index, 0); index = Math.min(index, original.length)`. -/
def clampIndex (index : Int) (n : Nat) : Nat :=
  (min (max index 0) (n : Int)).toNat

/-- The `insert` primitive from utils/array: returns `original` itself when
`values` is empty, otherwise fills a fresh array of size `n + m` with the
originals shifted around a gap at the clamped index and the values in the
gap.  The two fill loops of the source write exactly
`original.take i ++ values ++ original.drop i`. -/
def jsInsert (original : List T) (index : Int) (values : List T) : List T :=
  if values.isEmpty then original
  else
    let i := clampIndex index original.length
    original.take i ++ values ++ original.drop i

/-- `indices.sort((a, b) => a - b)`: ascending numeric sort (duplicates
kept, as in the source, which sorts the filtered array without
deduplicating it). -/
def sortIndices (l : List Int) : List Int :=
  List.insertionSort (fun a b => a ≤ b) l

/-- The `move` primitive from utils/array.  `indices` is filtered to the
range `[0, n)` and sorted ascending; if the original is empty or nothing
remains, the original array is returned unchanged.  Otherwise three write
loops run: positions `oi < index` not in the moved set (the first loop is
bounded by `index` alone, so for `index > n` it reads past the end of
`original` and writes `undefined` entries, modelled by `none`), then the
moved elements in ascending source order (one write per occurrence in the
sorted list, duplicates included), then the remaining positions `< n` not
in the moved set. -/
def jsMove (original : List T) (index : Int) (indices : List Int) :
    List (Option T) :=
  let n := original.length
  let valid := indices.filter fun i => decide (0 ≤ i) && decide (i < (n : Int))
  let sorted := sortIndices valid
  if original.isEmpty || sorted.isEmpty then original.map some
  else
    let bound1 := index.toNat
    let part1 := (List.range bound1).filterMap fun oi : Nat =>
      if (oi : Int) ∈ sorted then none else some (jsGet original (oi : Int))
    let part2 := sorted.map fun i => jsGet original i
    let part3 := ((List.range n).drop bound1).filterMap fun oi : Nat =>
      if (oi : Int) ∈ sorted then none else some (jsGet original (oi : Int))
    part1 ++ part2 ++ part3

/-- A JavaScript object reference: a value tagged with its allocation id. -/
structure Ref (α : Type) where
  id : Nat
  val : α
deriving DecidableEq

/-- Reference-level `insert` primitive: the `values.length === 0` branch
returns the original array object itself (no allocation); otherwise a
fresh array is allocated. -/
def jsInsertR (original : Ref (List T)) (index : Int) (values : List T)
    (ctr : Nat) : Ref (List T) × Nat :=
  if values.isEmpty then (original, ctr)
  else (⟨ctr, jsInsert original.val index values⟩, ctr + 1)

/-- `Selection`: the `'all'` sentinel or an explicit key set (modelled by
the list of the set's elements). -/
inductive Selection (K : Type) where
  | all : Selection K
  | set : List K → Selection K
deriving DecidableEq

/-- The engine's list state triple. -/
structure ListState (T : Type) (K : Type) where
  items : List T
  selectedKeys : Selection K
  filterText : String
deriving DecidableEq

/-- Helper for `keyIndex`: the `Map` built by
`items.reduce((m, item, index) => m.set(getKey(item), {item, index}), new Map())`
is last-write-wins, so a later matching index overrides an earlier one. -/
def keyIndexFrom (getKey : T → K) [DecidableEq K] (key : K) :
    List T → Nat → Option Nat
  | [], _ => none
  | a :: rest, i =>
    match keyIndexFrom getKey key rest (i + 1) with
    | some j => some j
    | none => if getKey a = key then some i else none

/-- `itemsByKey.index(key)`: position of the item with the given key
(last-write-wins under duplicate keys), `none` when absent. -/
def keyIndex (getKey : T → K) [DecidableEq K] (items : List T) (key : K) :
    Option Nat :=
  keyIndexFrom getKey key items 0

/-- `new Set(list)`: deduplicate, keeping the first occurrence of each
element. -/
def jsSetOfList [DecidableEq K] (l : List K) : List K :=
  l.foldl (fun acc k => if k ∈ acc then acc else acc ++ [k]) []

/-- The `remove` action's selection-pruning loop:
`for (const k of keys) selection.delete(k)`. -/
def deleteKeys [DecidableEq K] (keys : List K) (s : List K) : List K :=
  keys.foldl (fun acc k => acc.filter fun x => decide (x ≠ k)) s

/-- Engine action `setSelectedKeys`: replaces the selection outright, with
no validation against the current items. -/
def setSelectedKeysAction (state : ListState T K) (selectedKeys : Selection K) :
    ListState T K :=
  { state with selectedKeys := selectedKeys }

/-- Engine action `remove(...keys)`: drop the items whose key is in the
key set; keep the `all` sentinel or delete the keys from an explicit
selection; if the resulting item list is empty, the selection becomes a
fresh empty set. -/
def removeAction [DecidableEq K] (getKey : T → K) (state : ListState T K)
    (keys : List K) : ListState T K :=
  let keySet := jsSetOfList keys
  let items := state.items.filter fun item => !(getKey item ∈ keySet)
  let selection :=
    match state.selectedKeys with
    | Selection.all => Selection.all
    | Selection.set s => Selection.set (deleteKeys keys (jsSetOfList s))
  let selection := if items.isEmpty then Selection.set [] else selection
  { state with items := items, selectedKeys := selection }

/-- The two-element positional swap
`[items[i], items[toIndex]] = [items[toIndex], items[i]]`, in the case
where both positions are in range (otherwise the source would write
`undefined` into the copy, leaving the `List T` domain). -/
def swapList (l : List T) (i j : Nat) : List T :=
  match l[i]?, l[j]? with
  | some a, some b => (l.set i b).set j a
  | _, _ => l

/-- Engine action `move(key, toIndex)`: resolve `key` via the keyed index;
absent key returns the prior state itself.  A resolved key swaps the item
at the resolved position with the occupant of `toIndex`.  When `toIndex`
is out of range the source swap writes `undefined` into the items array
and extends it, which is not representable as a `List T`; that case is
`none` here. -/
def moveAction [DecidableEq K] (getKey : T → K) (state : ListState T K)
    (key : K) (toIndex : Int) : Option (ListState T K) :=
  match keyIndex getKey state.items key with
  | none => some state
  | some i =>
    if 0 ≤ toIndex ∧ toIndex < (state.items.length : Int) then
      some { state with items := swapList state.items i toIndex.toNat }
    else none

/-- Reference-level selection: the `'all'` sentinel, or a reference to a
key-set object. -/
inductive SelR (K : Type) where
  | all : SelR K
  | set : Ref (List K) → SelR K
deriving DecidableEq

/-- Reference-level engine state: the items array and the explicit
selection set are objects with identity. -/
structure EState (T : Type) (K : Type) where
  items : Ref (List T)
  sel : SelR K
  filterText : String
deriving DecidableEq

/-- `r.id < ctr` for a selection-set reference; trivial for `'all'`. -/
def selIdLt (sel : SelR K) (ctr : Nat) : Prop :=
  match sel with
  | SelR.all => True
  | SelR.set r => r.id < ctr

instance (sel : SelR K) (ctr : Nat) : Decidable (selIdLt sel ctr) := by
  unfold selIdLt
  cases sel <;> infer_instance

/-- Well-formed allocation state: every id reachable from the state is
below the allocation counter, so ids at or above the counter are fresh. -/
def WFState (s : Ref (EState T K)) (ctr : Nat) : Prop :=
  s.id < ctr ∧ s.val.items.id < ctr ∧ selIdLt s.val.sel ctr

instance (s : Ref (EState T K)) (ctr : Nat) : Decidable (WFState s ctr) := by
  unfold WFState
  infer_instance

/-- Engine action `insert(index, ...values)`: applies the insert primitive
to the items and spreads a fresh state object — the spread allocates a new
state object even when the primitive returned the items unchanged. -/
def insertActionR (s : Ref (EState T K)) (index : Int) (values : List T)
    (ctr : Nat) : Ref (EState T K) × Nat :=
  let p := jsInsertR s.val.items index values ctr
  (⟨p.2, ⟨p.1, s.val.sel, s.val.filterText⟩⟩, p.2 + 1)

/-- Engine action `insertBefore(key, ...values)`: with empty items, insert
at 0 regardless of the key; otherwise an unresolved key returns the prior
state object itself, and a resolved key inserts at its position. -/
def insertBeforeR [DecidableEq K] (getKey : T → K) (s : Ref (EState T K))
    (key : K) (values : List T) (ctr : Nat) : Ref (EState T K) × Nat :=
  if s.val.items.val.isEmpty then insertActionR s 0 values ctr
  else
    match keyIndex getKey s.val.items.val key with
    | none => (s, ctr)
    | some i => insertActionR s (i : Int) values ctr

/-- Engine action `insertAfter(key, ...values)`: like `insertBefore` but a
resolved key inserts at its position plus one. -/
def insertAfterR [DecidableEq K] (getKey : T → K) (s : Ref (EState T K))
    (key : K) (values : List T) (ctr : Nat) : Ref (EState T K) × Nat :=
  if s.val.items.val.isEmpty then insertActionR s 0 values ctr
  else
    match keyIndex getKey s.val.items.val key with
    | none => (s, ctr)
    | some i => insertActionR s ((i : Int) + 1) values ctr

/-- Engine action `update(key, newValue)` at the reference level: an
unresolved key returns the prior state object itself; otherwise the items
array is copied with the one position replaced and a fresh state object is
spread. -/
def updateActionR [DecidableEq K] (getKey : T → K) (s : Ref (EState T K))
    (key : K) (newValue : T) (ctr : Nat) : Ref (EState T K) × Nat :=
  match keyIndex getKey s.val.items.val key with
  | none => (s, ctr)
  | some i =>
    (⟨ctr + 1, ⟨⟨ctr, s.val.items.val.set i newValue⟩, s.val.sel,
      s.val.filterText⟩⟩, ctr + 2)

/-- Engine action `move(key, toIndex)` at the reference level: an
unresolved key returns the prior state object itself; otherwise
`[...state.items]` allocates a fresh items array, the swap is performed in
it, and a fresh state object is spread (`none` when `toIndex` is out of
range, as in `moveAction`). -/
def moveActionR [DecidableEq K] (getKey : T → K) (s : Ref (EState T K))
    (key : K) (toIndex : Int) (ctr : Nat) :
    Option (Ref (EState T K) × Nat) :=
  match keyIndex getKey s.val.items.val key with
  | none => some (s, ctr)
  | some i =>
    if 0 ≤ toIndex ∧ toIndex < (s.val.items.val.length : Int) then
      some (⟨ctr + 1, ⟨⟨ctr, swapList s.val.items.val i toIndex.toNat⟩,
        s.val.sel, s.val.filterText⟩⟩, ctr + 2)
    else none

/-- Engine action `remove(...keys)` at the reference level:
`state.items.filter(...)` always allocates a fresh items array;
`new Set(state.selectedKeys)` (and the `new Set()` used when the items
become empty) always allocates a fresh selection set; the final spread
always allocates a fresh state object. -/
def removeActionR [DecidableEq K] (getKey : T → K) (s : Ref (EState T K))
    (keys : List K) (ctr : Nat) : Ref (EState T K) × Nat :=
  let keySet := jsSetOfList keys
  let items : Ref (List T) :=
    ⟨ctr, s.val.items.val.filter fun item => !(getKey item ∈ keySet)⟩
  match s.val.sel with
  | SelR.all =>
    if items.val.isEmpty then
      (⟨ctr + 2, ⟨items, SelR.set ⟨ctr + 1, []⟩, s.val.filterText⟩⟩, ctr + 3)
    else
      (⟨ctr + 1, ⟨items, SelR.all, s.val.filterText⟩⟩, ctr + 2)
  | SelR.set r =>
    let elems := deleteKeys keys (jsSetOfList r.val)
    if items.val.isEmpty then
      (⟨ctr + 3, ⟨items, SelR.set ⟨ctr + 2, []⟩, s.val.filterText⟩⟩, ctr + 4)
    else
      (⟨ctr + 2, ⟨items, SelR.set ⟨ctr + 1, elems⟩, s.val.filterText⟩⟩,
        ctr + 3)

/-- A JavaScript primitive value, as far as the default key function needs
to distinguish them. -/
inductive JSVal where
  | undef : JSVal
  | nul : JSVal
  | boolean : Bool → JSVal
  | number : Int → JSVal
  | string : String → JSVal
deriving DecidableEq

/-- JavaScript truthiness for the values above: `undefined`, `null`,
`false`, `0` and `""` are falsy. -/
def truthy : JSVal → Bool
  | JSVal.undef => false
  | JSVal.nul => false
  | JSVal.boolean b => b
  | JSVal.number n => decide (n ≠ 0)
  | JSVal.string s => decide (s ≠ "")

/-- JavaScript `a || b`: `a` when truthy, else `b`. -/
def jsOr (a b : JSVal) : JSVal :=
  if truthy a then a else b

/-- An item as seen by the default key function: an object with `id` and
`key` properties (either of which may be `undefined`). -/
structure ItemRec where
  id : JSVal
  key : JSVal
deriving DecidableEq

/-- The default `getKey` of `useListData`:
`(item) => item.id || item.key`. -/
def defaultGetKey (item : ItemRec) : JSVal :=
  jsOr item.id item.key

/-! Helper lemmas. -/

theorem keyIndexFrom_lt (getKey : T → K) [DecidableEq K] (key : K) :
    ∀ (l : List T) (i j : Nat), keyIndexFrom getKey key l i = some j →
      j < i + l.length := by
  intro l
  induction l with
  | nil => intro i j h; simp [keyIndexFrom] at h
  | cons a rest ih =>
    intro i j h
    rw [keyIndexFrom] at h
    cases hrec : keyIndexFrom getKey key rest (i + 1) with
    | some j' =>
      rw [hrec] at h
      cases h
      have := ih (i + 1) _ hrec
      simp only [List.length_cons]
      omega
    | none =>
      rw [hrec] at h
      by_cases hk : getKey a = key
      · rw [if_pos hk] at h
        cases h
        simp only [List.length_cons]
        omega
      · rw [if_neg hk] at h
        cases h

theorem keyIndex_lt (getKey : T → K) [DecidableEq K] (items : List T) (key : K)
    (i : Nat) (h : keyIndex getKey items key = some i) : i < items.length := by
  have := keyIndexFrom_lt getKey key items 0 i h
  omega

theorem swapList_eq (l : List T) (i j : Nat) (hi : i < l.length)
    (hj : j < l.length) :
    swapList l i j = (l.set i l[j]).set j l[i] := by
  unfold swapList
  rw [List.getElem?_eq_getElem hi, List.getElem?_eq_getElem hj]

theorem mem_foldl_addIfAbsent [DecidableEq K] (x : K) :
    ∀ (l acc : List K),
      (x ∈ l.foldl (fun acc k => if k ∈ acc then acc else acc ++ [k]) acc) ↔
        x ∈ acc ∨ x ∈ l := by
  intro l
  induction l with
  | nil => simp
  | cons a l ih =>
    intro acc
    rw [List.foldl_cons, ih]
    by_cases ha : a ∈ acc
    · rw [if_pos ha]
      simp only [List.mem_cons]
      constructor
      · rintro (h | h)
        · exact Or.inl h
        · exact Or.inr (Or.inr h)
      · rintro (h | h | h)
        · exact Or.inl h
        · exact Or.inl (h ▸ ha)
        · exact Or.inr h
    · rw [if_neg ha]
      simp only [List.mem_append, List.mem_singleton, List.mem_cons]
      tauto

theorem mem_jsSetOfList [DecidableEq K] (x : K) (l : List K) :
    x ∈ jsSetOfList l ↔ x ∈ l := by
  unfold jsSetOfList
  rw [mem_foldl_addIfAbsent]
  simp

theorem mem_deleteKeys [DecidableEq K] (x : K) :
    ∀ (keys s : List K), x ∈ deleteKeys keys s ↔ x ∈ s ∧ x ∉ keys := by
  intro keys
  induction keys with
  | nil => simp [deleteKeys]
  | cons k ks ih =>
    intro s
    show x ∈ deleteKeys ks (s.filter fun x => decide (x ≠ k)) ↔ _
    rw [ih]
    simp only [List.mem_filter, decide_eq_true_eq, List.mem_cons]
    tauto

theorem length_filterMap_ifMem (s : List Int) (g : Nat → Option T) :
    ∀ l : List Nat,
      (l.filterMap fun oi : Nat =>
        if (oi : Int) ∈ s then none else some (g oi)).length =
      (l.filter fun oi : Nat => !decide ((oi : Int) ∈ s)).length := by
  intro l
  induction l with
  | nil => simp
  | cons a l ih => by_cases h : (a : Int) ∈ s <;> simp [h, ih]

theorem length_filter_ne_int (a : Int) :
    ∀ l : List Nat, l.Nodup → a.toNat ∈ l → 0 ≤ a →
      ((l.filter fun oi : Nat => !decide ((oi : Int) = a)).length) + 1 =
        l.length := by
  intro l
  induction l with
  | nil => intro _ hmem _; simp at hmem
  | cons b bs ih =>
    intro hnd hmem h0
    have hnb := (List.nodup_cons.mp hnd).1
    have hnbs := (List.nodup_cons.mp hnd).2
    rcases List.mem_cons.mp hmem with hb | hb
    · have hba : (b : Int) = a := by
        rw [← hb, Int.toNat_of_nonneg h0]
      have hfalse : ¬((!decide ((b : Int) = a)) = true) := by simp [hba]
      rw [List.filter_cons, if_neg hfalse]
      have hrest : bs.filter (fun oi : Nat => !decide ((oi : Int) = a)) = bs := by
        rw [List.filter_eq_self]
        intro x hx
        have hxa : (x : Int) ≠ a := by
          intro hcon
          have hx2 : x = a.toNat := by omega
          rw [hb] at hx2
          exact hnb (hx2 ▸ hx)
        simp [hxa]
      rw [hrest]
      simp
    · have hba : (b : Int) ≠ a := by
        intro hcon
        have hb2 : b = a.toNat := by omega
        exact hnb (hb2 ▸ hb)
      have htrue : (!decide ((b : Int) = a)) = true := by simp [hba]
      rw [List.filter_cons, if_pos htrue]
      have := ih hnbs hb h0
      simp only [List.length_cons]
      omega

theorem length_filter_notMem_range (n : Nat) :
    ∀ s : List Int, s.Nodup → (∀ x ∈ s, 0 ≤ x ∧ x < (n : Int)) →
      (((List.range n).filter fun oi : Nat => !decide ((oi : Int) ∈ s)).length)
        + s.length = n := by
  intro s
  induction s with
  | nil => simp
  | cons a s ih =>
    intro hnd hb
    have hna := (List.nodup_cons.mp hnd).1
    have hns := (List.nodup_cons.mp hnd).2
    have ha := hb a (List.mem_cons_self a s)
    have hcombine :
        ((List.range n).filter fun oi : Nat => !decide ((oi : Int) ∈ a :: s)) =
        (((List.range n).filter fun oi : Nat =>
          !decide ((oi : Int) ∈ s)).filter
            fun oi : Nat => !decide ((oi : Int) = a)) := by
      rw [List.filter_filter]
      apply List.filter_congr
      intro x _
      by_cases h1 : (x : Int) = a <;> by_cases h2 : (x : Int) ∈ s <;>
        simp [h1, h2]
    rw [hcombine]
    have hinner_nd :
        ((List.range n).filter fun oi : Nat =>
          !decide ((oi : Int) ∈ s)).Nodup :=
      (List.nodup_range n).filter _
    have hmem : a.toNat ∈
        ((List.range n).filter fun oi : Nat => !decide ((oi : Int) ∈ s)) := by
      rw [List.mem_filter]
      constructor
      · rw [List.mem_range]
        omega
      · have hcast : ((a.toNat : Int)) = a := Int.toNat_of_nonneg ha.1
        simp [hcast, hna]
    have h1 := length_filter_ne_int a _ hinner_nd hmem ha.1
    have h2 := ih hns (fun x hx => hb x (List.mem_cons_of_mem a hx))
    simp only [List.length_cons]
    omega

theorem length_filter_notMem_range' (n : Nat) (s : List Int)
    (hb : ∀ x ∈ s, 0 ≤ x ∧ x < (n : Int)) :
    (((List.range n).filter fun oi : Nat => !decide ((oi : Int) ∈ s)).length)
      + s.toFinset.card = n := by
  have hcongr :
      ((List.range n).filter fun oi : Nat => !decide ((oi : Int) ∈ s)) =
      ((List.range n).filter fun oi : Nat => !decide ((oi : Int) ∈ s.dedup)) := by
    apply List.filter_congr
    intro x _
    simp [List.mem_dedup]
  rw [hcongr, List.card_toFinset]
  exact length_filter_notMem_range n s.dedup (List.nodup_dedup s)
    (fun x hx => hb x (List.mem_dedup.mp hx))

theorem jsMove_nil_indices (S : List T) (t : Int) :
    jsMove S t [] = S.map some := by
  simp [jsMove, sortIndices]

theorem jsMove_eq_parts (S : List T) (t : Int) (P : List Int)
    (hfP : P.filter
      (fun i : Int => decide (0 ≤ i) && decide (i < (S.length : Int))) = P)
    (hSne : S.isEmpty = false) (hPne : (sortIndices P).isEmpty = false) :
    jsMove S t P =
      ((List.range t.toNat).filterMap fun oi : Nat =>
        if (oi : Int) ∈ sortIndices P then none
        else some (jsGet S (oi : Int))) ++
      (sortIndices P).map (fun i => jsGet S i) ++
      (((List.range S.length).drop t.toNat).filterMap fun oi : Nat =>
        if (oi : Int) ∈ sortIndices P then none
        else some (jsGet S (oi : Int))) := by
  simp only [jsMove]
  rw [hfP, hSne, hPne]
  simp

theorem jsMove_length_add_card (S : List T) (t : Int) (P : List Int)
    (hb : t.toNat ≤ S.length)
    (hP : ∀ i ∈ P, 0 ≤ i ∧ i < (S.length : Int))
    (hne : P ≠ []) :
    (jsMove S t P).length + P.toFinset.card = S.length + P.length := by
  have hfP : P.filter
      (fun i : Int => decide (0 ≤ i) && decide (i < (S.length : Int))) = P := by
    rw [List.filter_eq_self]
    intro a ha
    have := hP a ha
    simp [this.1, this.2]
  have hsp : List.Perm (sortIndices P) P := List.perm_insertionSort _ P
  have hslen : (sortIndices P).length = P.length := hsp.length_eq
  have hsne : sortIndices P ≠ [] := by
    intro h0
    rw [h0] at hslen
    exact hne (List.length_eq_zero.mp hslen.symm)
  have hPne : (sortIndices P).isEmpty = false := List.isEmpty_eq_false.mpr hsne
  have hSlen : 0 < S.length := by
    rcases P with _ | ⟨p, _⟩
    · exact absurd rfl hne
    · have := hP p (List.mem_cons_self _ _)
      omega
  have hSne : S.isEmpty = false := by
    rw [List.isEmpty_eq_false]
    intro h0
    rw [h0] at hSlen
    simp at hSlen
  rw [jsMove_eq_parts S t P hfP hSne hPne]
  simp only [List.length_append, List.length_map, length_filterMap_ifMem]
  have hsplit :
      ((List.range t.toNat).filter fun oi : Nat =>
        !decide ((oi : Int) ∈ sortIndices P)).length +
      (((List.range S.length).drop t.toNat).filter fun oi : Nat =>
        !decide ((oi : Int) ∈ sortIndices P)).length =
      ((List.range S.length).filter fun oi : Nat =>
        !decide ((oi : Int) ∈ sortIndices P)).length := by
    rw [← List.length_append, ← List.filter_append]
    congr 2
    have htake : (List.range S.length).take t.toNat = List.range t.toNat := by
      rw [List.take_range]
      congr 1
      omega
    rw [← htake, List.take_append_drop]
  have hcount := length_filter_notMem_range' S.length (sortIndices P)
    (fun x hx => hP x (hsp.subset hx))
  have hfin : (sortIndices P).toFinset = P.toFinset :=
    List.toFinset_eq_of_perm _ _ hsp
  rw [hfin] at hcount
  omega

/-! Claim theorems. -/

/-- Claim C1: for every sequence `S`, every target index `t`, and every
list `P` of in-range, duplicate-free source positions, the `move`
primitive returns the same result sequence for every permutation of `P`
(here: for any `Q` that is a permutation of `P`), and the moved elements
appear in the result as one contiguous block in ascending
original-position order (the block is the ascending sort of `P` mapped
through the element lookup). -/
theorem move_order_independent (S : List T) (t : Int) (P Q : List Int)
    (hperm : List.Perm Q P)
    (hP : ∀ i ∈ P, 0 ≤ i ∧ i < (S.length : Int)) (hnd : P.Nodup) :
    jsMove S t Q = jsMove S t P ∧
    ∃ pre suf, jsMove S t P =
      pre ++ (sortIndices P).map (fun i => jsGet S i) ++ suf := by
  have hQ : ∀ i ∈ Q, 0 ≤ i ∧ i < (S.length : Int) :=
    fun i hi => hP i (hperm.subset hi)
  have hfP : P.filter
      (fun i : Int => decide (0 ≤ i) && decide (i < (S.length : Int))) = P := by
    rw [List.filter_eq_self]
    intro a ha
    have := hP a ha
    simp [this.1, this.2]
  have hfQ : Q.filter
      (fun i : Int => decide (0 ≤ i) && decide (i < (S.length : Int))) = Q := by
    rw [List.filter_eq_self]
    intro a ha
    have := hQ a ha
    simp [this.1, this.2]
  have hsort : sortIndices Q = sortIndices P := by
    unfold sortIndices
    exact List.eq_of_perm_of_sorted
      ((List.perm_insertionSort _ Q).trans
        (hperm.trans (List.perm_insertionSort _ P).symm))
      (List.sorted_insertionSort _ Q)
      (List.sorted_insertionSort _ P)
  constructor
  · simp only [jsMove]
    rw [hfP, hfQ, hsort]
  · by_cases hS : S.isEmpty = true
    · have hP0 : P = [] := by
        cases P with
        | nil => rfl
        | cons p ps =>
          have h1 := hP p (List.mem_cons_self _ _)
          have h2 : S = [] := List.isEmpty_iff.mp hS
          rw [h2] at h1
          simp at h1
          omega
      refine ⟨S.map some, [], ?_⟩
      rw [hP0, jsMove_nil_indices]
      simp [sortIndices]
    · by_cases hs : (sortIndices P).isEmpty = true
      · have hP0 : P = [] := by
          have h0 : sortIndices P = [] := List.isEmpty_iff.mp hs
          have hlen : (sortIndices P).length = P.length :=
            (List.perm_insertionSort _ P).length_eq
          rw [h0] at hlen
          exact List.length_eq_zero.mp hlen.symm
        refine ⟨S.map some, [], ?_⟩
        rw [hP0, jsMove_nil_indices]
        simp [sortIndices]
      · refine ⟨_, _, jsMove_eq_parts S t P hfP ?_ ?_⟩
        · exact Bool.not_eq_true _ ▸ hS
        · exact Bool.not_eq_true _ ▸ hs

/-- Claim C1 witness: the instance of the order-independence theorem on
the concrete example of the source's test suite. -/
theorem move_order_independent_witness :
    jsMove ([0, 1, 2, 3, 4, 5, 6, 7, 8, 9, 10] : List Int) 5 [6, 3, 0, 9] =
      jsMove ([0, 1, 2, 3, 4, 5, 6, 7, 8, 9, 10] : List Int) 5 [3, 6, 9, 0] ∧
    ∃ pre suf,
      jsMove ([0, 1, 2, 3, 4, 5, 6, 7, 8, 9, 10] : List Int) 5 [3, 6, 9, 0] =
        pre ++ (sortIndices [3, 6, 9, 0]).map
          (fun i => jsGet ([0, 1, 2, 3, 4, 5, 6, 7, 8, 9, 10] : List Int) i)
          ++ suf :=
  move_order_independent [0, 1, 2, 3, 4, 5, 6, 7, 8, 9, 10] 5
    [3, 6, 9, 0] [6, 3, 0, 9] (by decide) (by decide) (by decide)

/-- Claim C2 counterexample: the move primitive does not clamp a target
index above the length.  On `S = [0, 1]`, `t = 3`, `P = [0]` the result
differs from the `t = 2 = length S` call (an `undefined` entry, `none`,
is written into the gap), and its length differs from `S`'s. -/
theorem move_no_upper_clamp_counterexample :
    jsMove ([0, 1] : List Int) 3 [0] ≠ jsMove ([0, 1] : List Int) 2 [0] ∧
    (jsMove ([0, 1] : List Int) 3 [0]).length ≠
      ([0, 1] : List Int).length := by
  constructor <;> decide

/-- Claim C2 (amended): the move primitive treats every non-positive
target index like `0`, and for a target index at most the length and
in-range duplicate-free source positions the result keeps the sequence's
length; but a target index above the length is NOT clamped (see the
counterexample). -/
theorem move_clamp_amended (S : List T) (t : Int) (P : List Int) :
    (t ≤ 0 → jsMove S t P = jsMove S 0 P) ∧
    (t.toNat ≤ S.length → (∀ i ∈ P, 0 ≤ i ∧ i < (S.length : Int)) →
      P.Nodup → (jsMove S t P).length = S.length) := by
  constructor
  · intro ht
    simp only [jsMove, Int.toNat_of_nonpos ht, Int.toNat_zero]
  · intro hb hP hnd
    cases hPe : P with
    | nil =>
      rw [jsMove_nil_indices]
      simp
    | cons p ps =>
      rw [← hPe]
      have hform := jsMove_length_add_card S t P hb hP (by rw [hPe]; simp)
      have hcard : P.toFinset.card = P.length :=
        List.toFinset_card_of_nodup hnd
      omega

/-- Claim C2 witness: the amended theorem applied at concrete inputs:
`t = -2` behaves like `t = 0`, and an in-range move keeps the length. -/
theorem move_clamp_amended_witness :
    jsMove ([0, 1] : List Int) (-2) [0] = jsMove ([0, 1] : List Int) 0 [0] ∧
    (jsMove ([0, 1] : List Int) 1 [0]).length = ([0, 1] : List Int).length :=
  ⟨(move_clamp_amended [0, 1] (-2) [0]).1 (by decide),
   (move_clamp_amended [0, 1] 1 [0]).2 (by decide) (by decide) (by decide)⟩

/-- Claim C3 counterexample: a duplicated valid source position is not
collapsed: `move([0,1,2,3,4], 0, [3,3])` differs from
`move([0,1,2,3,4], 0, [3])` (the moved element is emitted twice and the
result is longer than the input). -/
theorem move_duplicates_counterexample :
    jsMove ([0, 1, 2, 3, 4] : List Int) 0 [3, 3] ≠
      jsMove ([0, 1, 2, 3, 4] : List Int) 0 [3] := by
  decide

/-- Claim C3 (amended): the move primitive does not deduplicate source
positions.  For in-range positions (target index at most the length),
each listing contributes one copy of its element to the moved block, so
the result length satisfies
`length(result) + #distinct(P) = length(S) + length(P)`; in particular a
list with duplicates strictly grows the sequence instead of permuting
it. -/
theorem move_duplicates_amended (S : List T) (t : Int) (P : List Int)
    (hb : t.toNat ≤ S.length)
    (hP : ∀ i ∈ P, 0 ≤ i ∧ i < (S.length : Int)) (hne : P ≠ []) :
    (jsMove S t P).length + P.toFinset.card = S.length + P.length ∧
    (¬ P.Nodup → S.length < (jsMove S t P).length) := by
  have hform := jsMove_length_add_card S t P hb hP hne
  refine ⟨hform, fun hdup => ?_⟩
  have hsub : P.dedup.length ≤ P.length := (List.dedup_sublist P).length_le
  have hne2 : P.dedup.length ≠ P.length := by
    intro heq
    have : P.dedup = P := (List.dedup_sublist P).eq_of_length heq
    exact hdup (this ▸ List.nodup_dedup P)
  have hcard : P.toFinset.card = P.dedup.length := List.card_toFinset P
  omega

/-- Claim C3 witness: the amended theorem applied at the duplicate-list
input `P = [3,3]` of the counterexample. -/
theorem move_duplicates_amended_witness :
    ((jsMove ([0, 1, 2, 3, 4] : List Int) 0 [3, 3]).length +
      ([3, 3] : List Int).toFinset.card =
        ([0, 1, 2, 3, 4] : List Int).length + ([3, 3] : List Int).length) ∧
    ([0, 1, 2, 3, 4] : List Int).length <
      (jsMove ([0, 1, 2, 3, 4] : List Int) 0 [3, 3]).length :=
  ⟨(move_duplicates_amended [0, 1, 2, 3, 4] 0 [3, 3] (by decide) (by decide)
      (by decide)).1,
   (move_duplicates_amended [0, 1, 2, 3, 4] 0 [3, 3] (by decide) (by decide)
      (by decide)).2 (by decide)⟩

/-- Claim C4: for every sequence `S`, index `i`, and non-empty value list
`V`, `insert(S, i, V)` has length `length(S) + |V|`, the original
elements (with the inserted block cut out) are exactly `S` in order, the
values form a contiguous block of length `|V|` starting at the clamped
index in the order supplied, the clamp sends negative indices to `0`,
indices beyond the length to the length, and leaves in-range indices
unchanged; and when `V` is empty the insert returns the same sequence
reference for any index. -/
theorem insert_spec (S : List T) (index : Int) (V : List T)
    (r : Ref (List T)) (ctr : Nat) (_hr : r.val = S) :
    (V ≠ [] →
      (jsInsert S index V).length = S.length + V.length ∧
      (jsInsert S index V).take (clampIndex index S.length) ++
        (jsInsert S index V).drop (clampIndex index S.length + V.length)
          = S ∧
      ((jsInsert S index V).drop (clampIndex index S.length)).take V.length
        = V ∧
      (index < 0 → clampIndex index S.length = 0) ∧
      ((S.length : Int) < index → clampIndex index S.length = S.length) ∧
      (0 ≤ index → index ≤ (S.length : Int) →
        (clampIndex index S.length : Int) = index)) ∧
    jsInsertR r index [] ctr = (r, ctr) := by
  constructor
  · intro hV
    have hVe : V.isEmpty = false := List.isEmpty_eq_false.mpr hV
    have hins : jsInsert S index V =
        S.take (clampIndex index S.length) ++ V ++
          S.drop (clampIndex index S.length) := by
      simp only [jsInsert, hVe]
      simp
    have hc : clampIndex index S.length ≤ S.length := by
      unfold clampIndex
      omega
    have hlen_take : (S.take (clampIndex index S.length)).length =
        clampIndex index S.length := by
      rw [List.length_take]
      omega
    refine ⟨?_, ?_, ?_, ?_, ?_, ?_⟩
    · rw [hins]
      simp only [List.length_append, List.length_take, List.length_drop]
      omega
    · have h1 : (jsInsert S index V).take (clampIndex index S.length) =
          S.take (clampIndex index S.length) := by
        rw [hins, List.append_assoc, List.take_left' hlen_take]
      have h2 : (jsInsert S index V).drop
          (clampIndex index S.length + V.length) =
          S.drop (clampIndex index S.length) := by
        rw [hins]
        apply List.drop_left'
        rw [List.length_append]
        omega
      rw [h1, h2, List.take_append_drop]
    · rw [hins, List.append_assoc, List.drop_left' hlen_take,
        List.take_left' rfl]
    · intro h
      unfold clampIndex
      omega
    · intro h
      unfold clampIndex
      omega
    · intro h1 h2
      unfold clampIndex
      omega
  · simp [jsInsertR]

/-- Claim C4 witness: the theorem applied at `S = [0,1,2]`, `i = -1`,
`V = [9]` (a concrete case from the source's test suite), together with
the empty-values reference no-op at the same sequence. -/
theorem insert_spec_witness :
    (([9] : List Int) ≠ []) ∧
    ((jsInsert ([0, 1, 2] : List Int) (-1) [9]).length =
        ([0, 1, 2] : List Int).length + ([9] : List Int).length ∧
      (jsInsert ([0, 1, 2] : List Int) (-1) [9]).take
          (clampIndex (-1) ([0, 1, 2] : List Int).length) ++
        (jsInsert ([0, 1, 2] : List Int) (-1) [9]).drop
          (clampIndex (-1) ([0, 1, 2] : List Int).length +
            ([9] : List Int).length)
          = [0, 1, 2] ∧
      ((jsInsert ([0, 1, 2] : List Int) (-1) [9]).drop
          (clampIndex (-1) ([0, 1, 2] : List Int).length)).take
            ([9] : List Int).length
        = [9] ∧
      ((-1 : Int) < 0 → clampIndex (-1) ([0, 1, 2] : List Int).length = 0) ∧
      ((([0, 1, 2] : List Int).length : Int) < -1 →
        clampIndex (-1) ([0, 1, 2] : List Int).length =
          ([0, 1, 2] : List Int).length) ∧
      ((0 : Int) ≤ -1 → (-1 : Int) ≤ (([0, 1, 2] : List Int).length : Int) →
        (clampIndex (-1) ([0, 1, 2] : List Int).length : Int) = -1)) ∧
    jsInsertR (⟨7, [0, 1, 2]⟩ : Ref (List Int)) (-1) [] 3 =
      (⟨7, [0, 1, 2]⟩, 3) := by
  have h := insert_spec ([0, 1, 2] : List Int) (-1) [9]
    (⟨7, [0, 1, 2]⟩ : Ref (List Int)) 3 rfl
  exact ⟨by decide, h.1 (by decide), h.2⟩

/-- Claim C9: the default key function is `item.id || item.key`: for a
truthy `id` it returns the `id` property, and for every item whose `id`
property is falsy (`undefined`, `null`, `false`, `0`, `""`) it returns
the item's `key` property. -/
theorem defaultGetKey_spec (item : ItemRec) :
    (truthy item.id = true → defaultGetKey item = item.id) ∧
    (truthy item.id = false → defaultGetKey item = item.key) := by
  constructor <;> intro h <;> simp [defaultGetKey, jsOr, h]

/-- Claim C9 witness: an item with the falsy id `0` is keyed by its `key`
property. -/
theorem defaultGetKey_spec_witness :
    truthy (JSVal.number 0) = false ∧
    defaultGetKey ⟨JSVal.number 0, JSVal.string "k"⟩ = JSVal.string "k" :=
  ⟨by decide,
   (defaultGetKey_spec ⟨JSVal.number 0, JSVal.string "k"⟩).2 (by decide)⟩

/-- Claim C8: for `insertBefore(key, values)` and `insertAfter(key,
values)`: with an empty item sequence the values are inserted at position
0 regardless of key validity; with a non-empty sequence and an unresolved
key the exact prior state object is returned (selection and filter text
not rebuilt); and `insertAfter` with a resolved position `i` targets
`i + 1`. -/
theorem insertBeforeAfter_spec [DecidableEq K] (getKey : T → K)
    (s : Ref (EState T K)) (key : K) (V : List T) (ctr : Nat) :
    (s.val.items.val = [] →
      insertBeforeR getKey s key V ctr = insertActionR s 0 V ctr ∧
      insertAfterR getKey s key V ctr = insertActionR s 0 V ctr) ∧
    (s.val.items.val ≠ [] → keyIndex getKey s.val.items.val key = none →
      insertBeforeR getKey s key V ctr = (s, ctr) ∧
      insertAfterR getKey s key V ctr = (s, ctr)) ∧
    (∀ i, keyIndex getKey s.val.items.val key = some i →
      insertAfterR getKey s key V ctr =
        insertActionR s ((i : Nat) + 1 : Int) V ctr) := by
  refine ⟨?_, ?_, ?_⟩
  · intro h
    constructor <;> simp [insertBeforeR, insertAfterR, h]
  · intro hne hk
    constructor <;>
      simp [insertBeforeR, insertAfterR, List.isEmpty_eq_false.mpr hne, hk]
  · intro i hk
    have hne : s.val.items.val ≠ [] := by
      intro h0
      rw [h0] at hk
      simp [keyIndex, keyIndexFrom] at hk
    simp [insertAfterR, List.isEmpty_eq_false.mpr hne, hk]

/-- Claim C8 witness: the three parts of the theorem at concrete states
(empty items; non-empty items with the unknown key 99; non-empty items
with the key 6 resolving to position 1). -/
theorem insertBeforeAfter_spec_witness :
    (insertBeforeR (fun x : Int => x)
        (⟨0, ⟨⟨1, []⟩, SelR.all, "f"⟩⟩ : Ref (EState Int Int)) 99 [7] 2 =
      insertActionR ⟨0, ⟨⟨1, []⟩, SelR.all, "f"⟩⟩ 0 [7] 2) ∧
    (keyIndex (fun x : Int => x) [5, 6] 99 = none) ∧
    (insertBeforeR (fun x : Int => x)
        (⟨0, ⟨⟨1, [5, 6]⟩, SelR.all, "f"⟩⟩ : Ref (EState Int Int)) 99 [7] 2 =
      (⟨0, ⟨⟨1, [5, 6]⟩, SelR.all, "f"⟩⟩, 2)) ∧
    (keyIndex (fun x : Int => x) [5, 6] 6 = some 1) ∧
    (insertAfterR (fun x : Int => x)
        (⟨0, ⟨⟨1, [5, 6]⟩, SelR.all, "f"⟩⟩ : Ref (EState Int Int)) 6 [7] 2 =
      insertActionR ⟨0, ⟨⟨1, [5, 6]⟩, SelR.all, "f"⟩⟩ ((1 : Nat) + 1 : Int)
        [7] 2) :=
  ⟨(insertBeforeAfter_spec (fun x : Int => x)
      ⟨0, ⟨⟨1, []⟩, SelR.all, "f"⟩⟩ 99 [7] 2).1 rfl |>.1,
   by decide,
   ((insertBeforeAfter_spec (fun x : Int => x)
      ⟨0, ⟨⟨1, [5, 6]⟩, SelR.all, "f"⟩⟩ 99 [7] 2).2.1 (by decide)
        (by decide)).1,
   by decide,
   (insertBeforeAfter_spec (fun x : Int => x)
      ⟨0, ⟨⟨1, [5, 6]⟩, SelR.all, "f"⟩⟩ 6 [7] 2).2.2 1 (by decide)⟩

/-- Claim C5 counterexample: the engine `insert` action with an empty
value list does NOT return the identical prior state object — the spread
`{...state, items}` allocates a fresh state object (here id 5 instead of
the prior 0), so empty-value misuse is not reference-detectable on the
state; and an out-of-range index with non-empty values is clamped and
inserts rather than being a no-op. -/
theorem engine_noop_counterexample :
    (insertActionR (⟨0, ⟨⟨1, [5]⟩, SelR.all, ""⟩⟩ : Ref (EState Int Int))
        0 [] 5).1.id ≠
      (⟨0, ⟨⟨1, [5]⟩, SelR.all, ""⟩⟩ : Ref (EState Int Int)).id ∧
    (insertActionR (⟨0, ⟨⟨1, [5]⟩, SelR.all, ""⟩⟩ : Ref (EState Int Int))
        (-5) [9] 5).1.val.items.val ≠
      (⟨0, ⟨⟨1, [5]⟩, SelR.all, ""⟩⟩ : Ref (EState Int Int)).val.items.val := by
  constructor <;> decide

/-- Claim C5 (amended): the engine actions that resolve a key —
`insertBefore` / `insertAfter` (on a non-empty sequence), `move`, and
`update` — absorb an unknown key as a silent no-op returning the
identical prior state object with the allocation counter untouched; but
`insert` with an empty value list returns a fresh state object (whose
items field is the prior array by reference), and out-of-range indices
are clamped inserts, not no-ops (see the counterexample). -/
theorem engine_unknownKey_noop [DecidableEq K] (getKey : T → K)
    (s : Ref (EState T K)) (key : K) (V : List T) (v : T) (toIndex : Int)
    (ctr : Nat) (hk : keyIndex getKey s.val.items.val key = none) :
    (s.val.items.val ≠ [] →
      insertBeforeR getKey s key V ctr = (s, ctr) ∧
      insertAfterR getKey s key V ctr = (s, ctr)) ∧
    moveActionR getKey s key toIndex ctr = some (s, ctr) ∧
    updateActionR getKey s key v ctr = (s, ctr) := by
  refine ⟨fun hne => ?_, ?_, ?_⟩
  · constructor <;>
      simp [insertBeforeR, insertAfterR, List.isEmpty_eq_false.mpr hne, hk]
  · simp [moveActionR, hk]
  · simp [updateActionR, hk]

/-- Claim C5 witness: the amended theorem at a concrete one-item state and
the unknown key 99. -/
theorem engine_unknownKey_noop_witness :
    (keyIndex (fun x : Int => x) [5] 99 = none) ∧
    (([5] : List Int) ≠ []) ∧
    (insertBeforeR (fun x : Int => x)
        (⟨0, ⟨⟨1, [5]⟩, SelR.all, ""⟩⟩ : Ref (EState Int Int)) 99 [7] 3 =
      (⟨0, ⟨⟨1, [5]⟩, SelR.all, ""⟩⟩, 3) ∧
     insertAfterR (fun x : Int => x)
        (⟨0, ⟨⟨1, [5]⟩, SelR.all, ""⟩⟩ : Ref (EState Int Int)) 99 [7] 3 =
      (⟨0, ⟨⟨1, [5]⟩, SelR.all, ""⟩⟩, 3)) ∧
    moveActionR (fun x : Int => x)
        (⟨0, ⟨⟨1, [5]⟩, SelR.all, ""⟩⟩ : Ref (EState Int Int)) 99 0 3 =
      some (⟨0, ⟨⟨1, [5]⟩, SelR.all, ""⟩⟩, 3) ∧
    updateActionR (fun x : Int => x)
        (⟨0, ⟨⟨1, [5]⟩, SelR.all, ""⟩⟩ : Ref (EState Int Int)) 99 7 3 =
      (⟨0, ⟨⟨1, [5]⟩, SelR.all, ""⟩⟩, 3) := by
  have h := engine_unknownKey_noop (fun x : Int => x)
    (⟨0, ⟨⟨1, [5]⟩, SelR.all, ""⟩⟩ : Ref (EState Int Int)) 99 [7] 7 0 3
    (by decide)
  exact ⟨by decide, by decide, h.1 (by decide), h.2.1, h.2.2⟩

/-- Claim C10: `remove(keys)` always allocates: the returned state object
is fresh (id distinct from the prior state's), the items array is fresh,
and when the prior selection is an explicit set the returned selection
set is fresh — for every key list, including ones matching no item, so a
no-change remove is not detectable by reference comparison. -/
theorem remove_allocates_fresh [DecidableEq K] (getKey : T → K)
    (s : Ref (EState T K)) (keys : List K) (ctr : Nat)
    (hwf : WFState s ctr) :
    (removeActionR getKey s keys ctr).1.id ≠ s.id ∧
    (removeActionR getKey s keys ctr).1.val.items.id ≠ s.val.items.id ∧
    ∀ r, s.val.sel = SelR.set r →
      ∃ r', (removeActionR getKey s keys ctr).1.val.sel = SelR.set r' ∧
        r'.id ≠ r.id := by
  rcases hwf with ⟨h1, h2, h3⟩
  cases hsel : s.val.sel with
  | all =>
    by_cases hemp :
        (s.val.items.val.filter
          fun item => !decide (getKey item ∈ jsSetOfList keys)).isEmpty = true
    · simp only [removeActionR, hsel, hemp, if_true]
      refine ⟨by simp; omega, by simp; omega, ?_⟩
      intro r hr
      exact SelR.noConfusion hr
    · simp only [removeActionR, hsel, hemp, if_false]
      refine ⟨by simp; omega, by simp; omega, ?_⟩
      intro r hr
      exact SelR.noConfusion hr
  | set r0 =>
    rw [hsel] at h3
    simp only [selIdLt] at h3
    by_cases hemp :
        (s.val.items.val.filter
          fun item => !decide (getKey item ∈ jsSetOfList keys)).isEmpty = true
    · simp only [removeActionR, hsel, hemp, if_true]
      refine ⟨by simp; omega, by simp; omega, ?_⟩
      intro r hr
      cases hr
      exact ⟨_, rfl, by simp; omega⟩
    · simp only [removeActionR, hsel, hemp, if_false]
      refine ⟨by simp; omega, by simp; omega, ?_⟩
      intro r hr
      cases hr
      exact ⟨_, rfl, by simp; omega⟩

/-- Claim C10 witness: the theorem at a concrete well-formed state with an
explicit selection and a key list matching no item. -/
theorem remove_allocates_fresh_witness :
    WFState (⟨0, ⟨⟨1, [5]⟩, SelR.set ⟨2, [5]⟩, ""⟩⟩ : Ref (EState Int Int))
      3 ∧
    (removeActionR (fun x : Int => x)
        (⟨0, ⟨⟨1, [5]⟩, SelR.set ⟨2, [5]⟩, ""⟩⟩ : Ref (EState Int Int))
        [99] 3).1.id ≠ 0 ∧
    (removeActionR (fun x : Int => x)
        (⟨0, ⟨⟨1, [5]⟩, SelR.set ⟨2, [5]⟩, ""⟩⟩ : Ref (EState Int Int))
        [99] 3).1.val.items.id ≠ 1 ∧
    (∃ r', (removeActionR (fun x : Int => x)
        (⟨0, ⟨⟨1, [5]⟩, SelR.set ⟨2, [5]⟩, ""⟩⟩ : Ref (EState Int Int))
        [99] 3).1.val.sel = SelR.set r' ∧ r'.id ≠ 2) := by
  have h := remove_allocates_fresh (fun x : Int => x)
    (⟨0, ⟨⟨1, [5]⟩, SelR.set ⟨2, [5]⟩, ""⟩⟩ : Ref (EState Int Int)) [99] 3
    (by decide)
  exact ⟨by decide, h.1, h.2.1, h.2.2 ⟨2, [5]⟩ rfl⟩

/-- Claim C7: when the keyed index resolves `key` to position `i`, the
engine action `move(key, toIndex)` (for `toIndex` an actual position of
the sequence) performs a two-element positional swap: position `i` gets
the old occupant of `toIndex`, position `toIndex` gets the old occupant
of `i`, every other position's element is identical, the length is
unchanged, and selection and filter text are untouched; when the key is
absent the prior state is returned unchanged. -/
theorem engine_move_swap [DecidableEq K] (getKey : T → K)
    (s : ListState T K) (key : K) (toIndex : Int) :
    (keyIndex getKey s.items key = none →
      moveAction getKey s key toIndex = some s) ∧
    (∀ i, keyIndex getKey s.items key = some i → 0 ≤ toIndex →
      toIndex < (s.items.length : Int) →
      ∃ s', moveAction getKey s key toIndex = some s' ∧
        s'.selectedKeys = s.selectedKeys ∧
        s'.filterText = s.filterText ∧
        s'.items.length = s.items.length ∧
        s'.items[i]? = s.items[toIndex.toNat]? ∧
        s'.items[toIndex.toNat]? = s.items[i]? ∧
        ∀ p, p ≠ i → p ≠ toIndex.toNat → s'.items[p]? = s.items[p]?) := by
  constructor
  · intro hk
    simp [moveAction, hk]
  · intro i hk h0 hlt
    have hi : i < s.items.length := keyIndex_lt getKey s.items key i hk
    have hj : toIndex.toNat < s.items.length := by omega
    have hrange : 0 ≤ toIndex ∧ toIndex < (s.items.length : Int) := ⟨h0, hlt⟩
    refine ⟨{ s with items := swapList s.items i toIndex.toNat },
      by simp [moveAction, hk, hrange], rfl, rfl, ?_, ?_, ?_, ?_⟩
    · rw [swapList_eq s.items i toIndex.toNat hi hj]
      simp
    · rw [swapList_eq s.items i toIndex.toNat hi hj]
      by_cases hij : i = toIndex.toNat
      · subst hij
        rw [List.getElem?_set_self (by simpa using hi)]
        rw [List.getElem?_eq_getElem hj]
      · rw [List.getElem?_set_ne (fun h => hij h.symm),
          List.getElem?_set_self hi, List.getElem?_eq_getElem hj]
    · rw [swapList_eq s.items i toIndex.toNat hi hj]
      rw [List.getElem?_set_self (by simpa using hj)]
      rw [List.getElem?_eq_getElem hi]
    · intro p hpi hpj
      rw [swapList_eq s.items i toIndex.toNat hi hj]
      rw [List.getElem?_set_ne (fun h => hpj h.symm),
        List.getElem?_set_ne (fun h => hpi h.symm)]

/-- Claim C7 witness: the theorem at a concrete three-item state: moving
the item with key 30 (position 2) to index 0 swaps positions 0 and 2, and
the unknown key 99 is a no-op. -/
theorem engine_move_swap_witness :
    (keyIndex (fun x : Int => x) [10, 20, 30] 99 = none) ∧
    moveAction (fun x : Int => x)
      (⟨[10, 20, 30], Selection.all, ""⟩ : ListState Int Int) 99 0 =
      some ⟨[10, 20, 30], Selection.all, ""⟩ ∧
    (keyIndex (fun x : Int => x) [10, 20, 30] 30 = some 2) ∧
    ∃ s', moveAction (fun x : Int => x)
        (⟨[10, 20, 30], Selection.all, ""⟩ : ListState Int Int) 30 0 =
          some s' ∧
      s'.selectedKeys =
        (⟨[10, 20, 30], Selection.all, ""⟩ : ListState Int Int).selectedKeys ∧
      s'.filterText =
        (⟨[10, 20, 30], Selection.all, ""⟩ : ListState Int Int).filterText ∧
      s'.items.length = ([10, 20, 30] : List Int).length ∧
      s'.items[2]? = ([10, 20, 30] : List Int)[(0 : Int).toNat]? ∧
      s'.items[(0 : Int).toNat]? = ([10, 20, 30] : List Int)[2]? ∧
      ∀ p, p ≠ 2 → p ≠ (0 : Int).toNat →
        s'.items[p]? = ([10, 20, 30] : List Int)[p]? :=
  ⟨by decide,
   (engine_move_swap (fun x : Int => x)
      ⟨[10, 20, 30], Selection.all, ""⟩ 99 0).1 (by decide),
   by decide,
   (engine_move_swap (fun x : Int => x)
      ⟨[10, 20, 30], Selection.all, ""⟩ 30 0).2 2 (by decide) (by decide)
      (by decide)⟩

/-- Claim C6 counterexample: the emptiness invariant does not hold after
every engine action: `setSelectedKeys('all')` on a state with an empty
item sequence leaves the sequence empty with selection `all`, not the
empty explicit set; and `remove` does not merely delete the removed keys
from an explicit selection — emptying the items resets an explicit
selection `{9}` to the empty set even though key 9 was not removed. -/
theorem selection_invariant_counterexample :
    (setSelectedKeysAction (⟨[], Selection.set [], ""⟩ : ListState Int Int)
      Selection.all).items = [] ∧
    (setSelectedKeysAction (⟨[], Selection.set [], ""⟩ : ListState Int Int)
      Selection.all).selectedKeys = Selection.all ∧
    (setSelectedKeysAction (⟨[], Selection.set [], ""⟩ : ListState Int Int)
      Selection.all).selectedKeys ≠ Selection.set [] ∧
    (removeAction (fun x : Int => x)
      (⟨[1], Selection.set [9], ""⟩ : ListState Int Int) [1]).selectedKeys =
      Selection.set [] := by
  refine ⟨rfl, rfl, by decide, by decide⟩

/-- Claim C6 (amended): the normalization invariant holds after `remove`
(not after every action — `setSelectedKeys` replaces the selection with
no validation, see the counterexample): if the items resulting from
`remove(keys)` are empty the selection is the empty explicit set
(regardless of the prior selection, taking precedence over key
deletion); an `all` selection surviving a non-emptying remove stays
`all`; and an explicit selection surviving a non-emptying remove holds
exactly its prior members minus the removed keys. -/
theorem remove_selection_spec [DecidableEq K] (getKey : T → K)
    (s : ListState T K) (keys : List K) :
    ((removeAction getKey s keys).items = [] →
      (removeAction getKey s keys).selectedKeys = Selection.set []) ∧
    (s.selectedKeys = Selection.all →
      (removeAction getKey s keys).items ≠ [] →
      (removeAction getKey s keys).selectedKeys = Selection.all) ∧
    (∀ sl, s.selectedKeys = Selection.set sl →
      (removeAction getKey s keys).items ≠ [] →
      ∃ l', (removeAction getKey s keys).selectedKeys = Selection.set l' ∧
        ∀ x, x ∈ l' ↔ (x ∈ sl ∧ x ∉ keys)) := by
  have hitems : (removeAction getKey s keys).items =
      s.items.filter (fun item => !(decide (getKey item ∈ jsSetOfList keys))) := by
    simp [removeAction]
  refine ⟨fun h0 => ?_, fun hall hne => ?_, fun sl hset hne => ?_⟩
  · rw [hitems] at h0
    have hF : (s.items.filter
        (fun item => !(decide (getKey item ∈ jsSetOfList keys)))).isEmpty =
          true := List.isEmpty_iff.mpr h0
    simp only [removeAction, hF, if_true]
  · rw [hitems] at hne
    have hF : (s.items.filter
        (fun item => !(decide (getKey item ∈ jsSetOfList keys)))).isEmpty =
          false := List.isEmpty_eq_false.mpr hne
    simp [removeAction, hall, hF]
  · rw [hitems] at hne
    have hF : (s.items.filter
        (fun item => !(decide (getKey item ∈ jsSetOfList keys)))).isEmpty =
          false := List.isEmpty_eq_false.mpr hne
    refine ⟨deleteKeys keys (jsSetOfList sl), ?_, ?_⟩
    · simp [removeAction, hset, hF]
    · intro x
      rw [mem_deleteKeys, mem_jsSetOfList]

/-- Claim C6 witness: the amended theorem at the concrete removal scenario
of the spec (items keyed by identity, removing key 2 from selection
`{2, 3}` keeps exactly `{3}`), and at an `all`-selection state where a
strict subset is removed. -/
theorem remove_selection_spec_witness :
    ((removeAction (fun x : Int => x)
      (⟨[1, 2, 3], Selection.set [2, 3], ""⟩ : ListState Int Int)
        [2]).items ≠ []) ∧
    (∃ l', (removeAction (fun x : Int => x)
        (⟨[1, 2, 3], Selection.set [2, 3], ""⟩ : ListState Int Int)
          [2]).selectedKeys = Selection.set l' ∧
      ∀ x, x ∈ l' ↔ (x ∈ ([2, 3] : List Int) ∧ x ∉ ([2] : List Int))) ∧
    ((removeAction (fun x : Int => x)
      (⟨[1, 2], Selection.all, ""⟩ : ListState Int Int) [2]).items ≠ []) ∧
    (removeAction (fun x : Int => x)
      (⟨[1, 2], Selection.all, ""⟩ : ListState Int Int) [2]).selectedKeys =
      Selection.all :=
  ⟨by decide,
   (remove_selection_spec (fun x : Int => x)
      ⟨[1, 2, 3], Selection.set [2, 3], ""⟩ [2]).2.2 [2, 3] rfl (by decide),
   by decide,
   (remove_selection_spec (fun x : Int => x)
      ⟨[1, 2], Selection.all, ""⟩ [2]).2.1 rfl (by decide)⟩

end ListCore
